import Mathlib

/-!
Verification development for the MP2 expression component of the dyson
repository (src/dyson/expressions/mp2.py).  Numeric arrays are embedded as
total functions from natural-number indices into the rationals; all shapes
are carried alongside as explicit dimensions.  Flattened auxiliary indices
follow the C-order ravel convention of the source arrays.
-/

namespace DysonMP2

/-- External orbital data consumed by the expression: atomic-orbital count,
molecular-orbital count, coefficient matrix, orbital energies, occupation
numbers, and the raw two-electron integral tensor. -/
structure MolInput where
  nao : ℕ
  nmo : ℕ
  mo_coeff : ℕ → ℕ → ℚ
  mo_energy : ℕ → ℚ
  mo_occ : ℕ → ℚ
  eri : ℕ → ℕ → ℕ → ℕ → ℚ

/-- Ordered list of orbital indices selected by the occupied mask,
as in the boolean-mask column selection mo_coeff[:, occ(self)]. -/
def occIdx (M : MolInput) (om : ℕ → Bool) : List ℕ :=
  (List.range M.nmo).filter om

/-- Ordered list of orbital indices selected by the virtual mask. -/
def virIdx (M : MolInput) (vm : ℕ → Bool) : List ℕ :=
  (List.range M.nmo).filter vm

/-- Number of occupied orbitals. -/
def nocc (M : MolInput) (om : ℕ → Bool) : ℕ := (occIdx M om).length

/-- Number of virtual orbitals. -/
def nvir (M : MolInput) (vm : ℕ → Bool) : ℕ := (virIdx M vm).length

/-- Orbital indices of the main block: the occupied subset when the
non-Dyson flag is set, the full orbital range otherwise. -/
def mainIdx (M : MolInput) (om : ℕ → Bool) (nd : Bool) : List ℕ :=
  if nd then occIdx M om else List.range M.nmo

/-- Size of the main block. -/
def nmain (M : MolInput) (om : ℕ → Bool) (nd : Bool) : ℕ :=
  (mainIdx M om nd).length

/-- Occupied orbital energies, eo = mo_energy[occ]. -/
def eo (M : MolInput) (om : ℕ → Bool) (i : ℕ) : ℚ :=
  M.mo_energy ((occIdx M om).getD i 0)

/-- Virtual orbital energies, ev = mo_energy[vir]. -/
def ev (M : MolInput) (vm : ℕ → Bool) (a : ℕ) : ℚ :=
  M.mo_energy ((virIdx M vm).getD a 0)

/-- Main-block orbital energies, e = mo_energy restricted to the main block. -/
def emain (M : MolInput) (om : ℕ → Bool) (nd : Bool) (x : ℕ) : ℚ :=
  M.mo_energy ((mainIdx M om nd).getD x 0)

/-- Occupied columns of the coefficient matrix, co = mo_coeff[:, occ]. -/
def co (M : MolInput) (om : ℕ → Bool) (mu i : ℕ) : ℚ :=
  M.mo_coeff mu ((occIdx M om).getD i 0)

/-- Virtual columns of the coefficient matrix, cv = mo_coeff[:, vir]. -/
def cv (M : MolInput) (vm : ℕ → Bool) (mu a : ℕ) : ℚ :=
  M.mo_coeff mu ((virIdx M vm).getD a 0)

/-- Main-block columns of the coefficient matrix. -/
def cmain (M : MolInput) (om : ℕ → Bool) (nd : Bool) (mu x : ℕ) : ℚ :=
  M.mo_coeff mu ((mainIdx M om nd).getD x 0)

/-- Four-index molecular-orbital transform of the raw integral tensor,
as performed by ao2mo.incore.general(eri, (c1, c2, c3, c4), compact=False)
followed by the reshape to per-factor column counts. -/
def ao2mo (M : MolInput) (c1 c2 c3 c4 : ℕ → ℕ → ℚ) (p q r s : ℕ) : ℚ :=
  Finset.sum (Finset.range M.nao) (fun mu =>
    Finset.sum (Finset.range M.nao) (fun nu =>
      Finset.sum (Finset.range M.nao) (fun lam =>
        Finset.sum (Finset.range M.nao) (fun sig =>
          c1 mu p * c2 nu q * c3 lam r * c4 sig s * M.eri mu nu lam sig))))

/-- The cached coupling tensor xija built by _integrals_for_hamiltonian:
the (main, occ, occ, vir) projection of the integral tensor. -/
def integrals_for_hamiltonian (M : MolInput) (om vm : ℕ → Bool) (nd : Bool)
    (x i j a : ℕ) : ℚ :=
  ao2mo M (cmain M om nd) (co M om) (co M om) (cv M vm) x i j a

/-- The (main, vir, occ, vir) projection used by get_static_part. -/
def xajb (M : MolInput) (om vm : ℕ → Bool) (nd : Bool) (x a j b : ℕ) : ℚ :=
  ao2mo M (cmain M om nd) (cv M vm) (co M om) (cv M vm) x a j b

/-- Energy denominator e_xajb = e[x] - ev[a] + eo[j] - ev[b]. -/
def e_xajb (M : MolInput) (om vm : ℕ → Bool) (nd : Bool) (x a j b : ℕ) : ℚ :=
  emain M om nd x - ev M vm a + eo M om j - ev M vm b

/-- Amplitude tensor t2 = xajb / e_xajb (elementwise). -/
def t2 (M : MolInput) (om vm : ℕ → Bool) (nd : Bool) (x a j b : ℕ) : ℚ :=
  xajb M om vm nd x a j b / e_xajb M om vm nd x a j b

/-- Exchange-combined tensor 2 * xajb - xajb.transpose(0, 3, 2, 1). -/
def xajb2 (M : MolInput) (om vm : ℕ → Bool) (nd : Bool) (x a j b : ℕ) : ℚ :=
  2 * xajb M om vm nd x a j b - xajb M om vm nd x b j a

/-- The unsymmetrized static contraction
h1 = einsum(xajb,yajb->xy, xajb2, t2) * 0.5. -/
def staticH1 (M : MolInput) (om vm : ℕ → Bool) (nd : Bool) (x y : ℕ) : ℚ :=
  Finset.sum (Finset.range (nvir M vm)) (fun a =>
    Finset.sum (Finset.range (nocc M om)) (fun j =>
      Finset.sum (Finset.range (nvir M vm)) (fun b =>
        xajb2 M om vm nd x a j b * t2 M om vm nd y a j b))) * (1 / 2)

/-- get_static_part: h1 symmetrized by adding its transpose, plus the
diagonal of the main-block orbital energies. -/
def get_static_part (M : MolInput) (om vm : ℕ → Bool) (nd : Bool)
    (x y : ℕ) : ℚ :=
  staticH1 M om vm nd x y + staticH1 M om vm nd y x +
    (if x = y then emain M om nd x else 0)

/-- Mutable state of an MP2 expression object: the non-Dyson flag and the
cached coupling tensor self.xija. -/
structure MP2State where
  non_dyson : Bool
  xija : ℕ → ℕ → ℕ → ℕ → ℚ

/-- Constructor: stores the flag and builds the integral cache. -/
def mkMP2 (M : MolInput) (om vm : ℕ → Bool) (nd : Bool) : MP2State :=
  ⟨nd, integrals_for_hamiltonian M om vm nd⟩

/-- The non_dyson property setter: records the new value and rebuilds the
cached tensor exactly when the value changed. -/
def setNonDyson (M : MolInput) (om vm : ℕ → Bool) (s : MP2State)
    (value : Bool) : MP2State :=
  if value = s.non_dyson then ⟨value, s.xija⟩
  else ⟨value, integrals_for_hamiltonian M om vm value⟩

/-- Number of auxiliary configurations, nocc * nocc * nvir. -/
def auxDim (M : MolInput) (om vm : ℕ → Bool) : ℕ :=
  nocc M om * nocc M om * nvir M vm

/-- Total dimension of the state space, n_main + n_aux. -/
def dimTotal (M : MolInput) (om vm : ℕ → Bool) (nd : Bool) : ℕ :=
  nmain M om nd + auxDim M om vm

/-- C-order flat position of the auxiliary triple (i, j, a) inside the
raveled (nocc, nocc, nvir) block. -/
def flatIdx (M : MolInput) (om vm : ℕ → Bool) (i j a : ℕ) : ℕ :=
  (i * nocc M om + j) * nvir M vm + a

/-- First coordinate of the auxiliary triple for a flat position. -/
def idxI (M : MolInput) (om vm : ℕ → Bool) (t : ℕ) : ℕ :=
  t / (nocc M om * nvir M vm)

/-- Second coordinate of the auxiliary triple for a flat position. -/
def idxJ (M : MolInput) (om vm : ℕ → Bool) (t : ℕ) : ℕ :=
  (t / nvir M vm) % nocc M om

/-- Third coordinate of the auxiliary triple for a flat position. -/
def idxA (M : MolInput) (vm : ℕ → Bool) (t : ℕ) : ℕ :=
  t % nvir M vm

/-- Auxiliary energy e_ija = eo[i] + eo[j] - ev[a] at a flat position. -/
def eIJA (M : MolInput) (om vm : ℕ → Bool) (t : ℕ) : ℚ :=
  eo M om (idxI M om vm t) + eo M om (idxJ M om vm t) - ev M vm (idxA M vm t)

/-- apply_hamiltonian on a flat state vector: main rows get the static
block action plus the coupling contraction with the auxiliary slice;
auxiliary rows get the two exchange-signed coupling contractions with the
main slice plus the elementwise auxiliary-energy scaling. -/
def apply_hamiltonian (M : MolInput) (om vm : ℕ → Bool) (s : MP2State)
    (stat : Option (ℕ → ℕ → ℚ)) (v : ℕ → ℚ) (k : ℕ) : ℚ :=
  if k < nmain M om s.non_dyson then
    Finset.sum (Finset.range (nmain M om s.non_dyson))
      (fun y => (stat.getD (get_static_part M om vm s.non_dyson)) k y * v y)
    + Finset.sum (Finset.range (nocc M om)) (fun i =>
        Finset.sum (Finset.range (nocc M om)) (fun j =>
          Finset.sum (Finset.range (nvir M vm)) (fun a =>
            s.xija k i j a *
              v (nmain M om s.non_dyson + flatIdx M om vm i j a))))
  else if k < dimTotal M om vm s.non_dyson then
    2 * Finset.sum (Finset.range (nmain M om s.non_dyson)) (fun x =>
          s.xija x (idxI M om vm (k - nmain M om s.non_dyson))
            (idxJ M om vm (k - nmain M om s.non_dyson))
            (idxA M vm (k - nmain M om s.non_dyson)) * v x)
    - Finset.sum (Finset.range (nmain M om s.non_dyson)) (fun x =>
          s.xija x (idxJ M om vm (k - nmain M om s.non_dyson))
            (idxI M om vm (k - nmain M om s.non_dyson))
            (idxA M vm (k - nmain M om s.non_dyson)) * v x)
    + v k * eIJA M om vm (k - nmain M om s.non_dyson)
  else 0

/-- diagonal: the diagonal of the static block concatenated with the
raveled auxiliary energies. -/
def diagonal (M : MolInput) (om vm : ℕ → Bool) (nd : Bool)
    (stat : Option (ℕ → ℕ → ℚ)) (k : ℕ) : ℚ :=
  if k < nmain M om nd then
    (stat.getD (get_static_part M om vm nd)) k k
  else if k < dimTotal M om vm nd then
    eIJA M om vm (k - nmain M om nd)
  else 0

/-- get_wavefunction: a fresh zero vector of length n + nija with a single
one written at the requested orbital position. -/
def get_wavefunction (M : MolInput) (om vm : ℕ → Bool) (nd : Bool)
    (orb k : ℕ) : ℚ :=
  if k < (if nd then nocc M om else nocc M om + nvir M vm) + auxDim M om vm
  then (if k = orb then 1 else 0) else 0

/-- One term of the self-energy moment accumulation: the contraction over
occupied pairs and a virtual index of the left and right coupling vectors
weighted by the n-th power of the auxiliary energy. -/
def seMoment (M : MolInput) (om vm : ℕ → Bool) (s : MP2State) (n x y : ℕ) : ℚ :=
  Finset.sum (Finset.range (nocc M om)) (fun i =>
    Finset.sum (Finset.range (nocc M om)) (fun j =>
      Finset.sum (Finset.range (nvir M vm)) (fun a =>
        s.xija x i j a * (2 * s.xija y i j a - s.xija y j i a) *
          (eo M om i + eo M om j - ev M vm a) ^ n)))

/-- build_se_moments: the list of moment matrices for orders 0..nmom-1. -/
def build_se_moments (M : MolInput) (om vm : ℕ → Bool) (s : MP2State)
    (nmom : ℕ) : List (ℕ → ℕ → ℚ) :=
  (List.range nmom).map (fun n => seMoment M om vm s n)

/-- Standard basis vector with a one at position l. -/
def basisVec (l k : ℕ) : ℚ := if k = l then 1 else 0

/-- Dense operator materialized column by column by applying the implicit
Hamiltonian to each standard basis vector. -/
def hmat (M : MolInput) (om vm : ℕ → Bool) (s : MP2State) (k l : ℕ) : ℚ :=
  apply_hamiltonian M om vm s none (basisVec l) k

/-- Method-call view of apply_hamiltonian: the expression state threaded
through the call together with the returned vector. -/
def apply_hamiltonian_call (M : MolInput) (om vm : ℕ → Bool) (s : MP2State)
    (stat : Option (ℕ → ℕ → ℚ)) (v : ℕ → ℚ) : MP2State × (ℕ → ℚ) :=
  (s, fun k => apply_hamiltonian M om vm s stat v k)

/-- Method-call view of diagonal. -/
def diagonal_call (M : MolInput) (om vm : ℕ → Bool) (s : MP2State)
    (stat : Option (ℕ → ℕ → ℚ)) : MP2State × (ℕ → ℚ) :=
  (s, fun k => diagonal M om vm s.non_dyson stat k)

/-- Method-call view of get_wavefunction. -/
def get_wavefunction_call (M : MolInput) (om vm : ℕ → Bool) (s : MP2State)
    (orb : ℕ) : MP2State × (ℕ → ℚ) :=
  (s, fun k => get_wavefunction M om vm s.non_dyson orb k)

/-- Method-call view of build_se_moments. -/
def build_se_moments_call (M : MolInput) (om vm : ℕ → Bool) (s : MP2State)
    (nmom : ℕ) : MP2State × List (ℕ → ℕ → ℚ) :=
  (s, build_se_moments M om vm s nmom)

/-- Occupied mask of the hole variant: mo_occ > 0. -/
def occ1h (M : MolInput) (p : ℕ) : Bool := decide (0 < M.mo_occ p)

/-- Virtual mask of the hole variant: mo_occ == 0. -/
def vir1h (M : MolInput) (p : ℕ) : Bool := decide (M.mo_occ p = 0)

/-- Occupied mask of the particle variant: mo_occ == 0. -/
def occ1p (M : MolInput) (p : ℕ) : Bool := decide (M.mo_occ p = 0)

/-- Virtual mask of the particle variant: mo_occ > 0. -/
def vir1p (M : MolInput) (p : ℕ) : Bool := decide (0 < M.mo_occ p)

/-- Orbital input with the occupation inverted: occupied orbitals become
unoccupied and conversely, everything else untouched. -/
def invOcc (M : MolInput) : MolInput :=
  { M with mo_occ := fun p => if 0 < M.mo_occ p then 0 else 2 }

/-- Orbital energies of the concrete scenario of the specification. -/
def exEnergy (p : ℕ) : ℚ :=
  if p = 0 then -1 else if p = 1 then -(1 / 2)
  else if p = 2 then 1 / 2 else if p = 3 then 1 else 0

/-- Occupation numbers of the concrete scenario: two occupied, two virtual. -/
def exOcc (p : ℕ) : ℚ := if p < 2 then 2 else 0

/-- Concrete orbital input: four orbitals, identity coefficients, an
all-ones integral tensor. -/
def Mex : MolInput :=
  ⟨4, 4, fun mu p => if mu = p then 1 else 0, exEnergy, exOcc,
    fun _ _ _ _ => 1⟩

lemma sum_range_mul_eq (a b : ℕ) (f : ℕ → ℕ → ℚ) :
    Finset.sum (Finset.range (a * b)) (fun t => f (t / b) (t % b)) =
    Finset.sum (Finset.range a) (fun i =>
      Finset.sum (Finset.range b) (fun j => f i j)) := by
  induction a with
  | zero => simp
  | succ a ih =>
    rw [Nat.succ_mul, Finset.sum_range_add, ih, Finset.sum_range_succ]
    congr 1
    refine Finset.sum_congr rfl (fun j hj => ?_)
    have hjb : j < b := Finset.mem_range.mp hj
    have h1 : (a * b + j) / b = a := by
      rw [Nat.add_comm (a * b) j, Nat.mul_comm a b,
        Nat.add_mul_div_left j a (Nat.lt_of_le_of_lt (Nat.zero_le j) hjb),
        Nat.div_eq_of_lt hjb, Nat.zero_add]
    have h2 : (a * b + j) % b = j := by
      rw [Nat.add_comm (a * b) j, Nat.mul_comm a b,
        Nat.add_mul_mod_self_left, Nat.mod_eq_of_lt hjb]
    rw [h1, h2]

lemma div_flat (M : MolInput) (om vm : ℕ → Bool) (i j a : ℕ)
    (ha : a < nvir M vm) :
    flatIdx M om vm i j a / nvir M vm = i * nocc M om + j := by
  unfold flatIdx
  rw [Nat.mul_comm (i * nocc M om + j) (nvir M vm),
    Nat.mul_add_div (Nat.lt_of_le_of_lt (Nat.zero_le a) ha),
    Nat.div_eq_of_lt ha, Nat.add_zero]

lemma idxA_flat (M : MolInput) (om vm : ℕ → Bool) (i j a : ℕ)
    (ha : a < nvir M vm) :
    idxA M vm (flatIdx M om vm i j a) = a := by
  unfold idxA flatIdx
  rw [Nat.mul_comm (i * nocc M om + j) (nvir M vm), Nat.mul_add_mod,
    Nat.mod_eq_of_lt ha]

lemma idxJ_flat (M : MolInput) (om vm : ℕ → Bool) (i j a : ℕ)
    (hj : j < nocc M om) (ha : a < nvir M vm) :
    idxJ M om vm (flatIdx M om vm i j a) = j := by
  unfold idxJ
  rw [div_flat M om vm i j a ha, Nat.add_comm (i * nocc M om) j,
    Nat.mul_comm i (nocc M om), Nat.add_mul_mod_self_left,
    Nat.mod_eq_of_lt hj]

lemma idxI_flat (M : MolInput) (om vm : ℕ → Bool) (i j a : ℕ)
    (hj : j < nocc M om) (ha : a < nvir M vm) :
    idxI M om vm (flatIdx M om vm i j a) = i := by
  unfold idxI
  rw [Nat.mul_comm (nocc M om) (nvir M vm), ← Nat.div_div_eq_div_mul,
    div_flat M om vm i j a ha, Nat.add_comm (i * nocc M om) j,
    Nat.mul_comm i (nocc M om),
    Nat.add_mul_div_left j i (Nat.lt_of_le_of_lt (Nat.zero_le j) hj),
    Nat.div_eq_of_lt hj, Nat.zero_add]

lemma flat_unflat (M : MolInput) (om vm : ℕ → Bool) (t : ℕ) :
    flatIdx M om vm (idxI M om vm t) (idxJ M om vm t) (idxA M vm t) = t := by
  have h2 : idxI M om vm t * nocc M om + idxJ M om vm t = t / nvir M vm := by
    unfold idxI idxJ
    rw [Nat.mul_comm (nocc M om) (nvir M vm), ← Nat.div_div_eq_div_mul,
      Nat.mul_comm (t / nvir M vm / nocc M om) (nocc M om)]
    exact Nat.div_add_mod (t / nvir M vm) (nocc M om)
  unfold flatIdx idxA
  rw [h2, Nat.mul_comm (t / nvir M vm) (nvir M vm)]
  exact Nat.div_add_mod t (nvir M vm)

lemma flatIdx_lt (M : MolInput) (om vm : ℕ → Bool) (i j a : ℕ)
    (hi : i < nocc M om) (hj : j < nocc M om) (ha : a < nvir M vm) :
    flatIdx M om vm i j a < auxDim M om vm := by
  unfold flatIdx auxDim
  have h1 : i * nocc M om + j < nocc M om * nocc M om := by
    have h2 : (i + 1) * nocc M om ≤ nocc M om * nocc M om :=
      Nat.mul_le_mul_right _ hi
    have h3 : i * nocc M om + nocc M om = (i + 1) * nocc M om := by ring
    omega
  have h4 : (i * nocc M om + j + 1) * nvir M vm ≤
      nocc M om * nocc M om * nvir M vm :=
    Nat.mul_le_mul_right _ h1
  have h5 : (i * nocc M om + j) * nvir M vm + nvir M vm =
      (i * nocc M om + j + 1) * nvir M vm := by ring
  omega

lemma sum_unflatten (M : MolInput) (om vm : ℕ → Bool) (g : ℕ → ℕ → ℕ → ℚ) :
    Finset.sum (Finset.range (auxDim M om vm))
      (fun t => g (idxI M om vm t) (idxJ M om vm t) (idxA M vm t)) =
    Finset.sum (Finset.range (nocc M om)) (fun i =>
      Finset.sum (Finset.range (nocc M om)) (fun j =>
        Finset.sum (Finset.range (nvir M vm)) (fun a => g i j a))) := by
  have h0 : auxDim M om vm = nocc M om * (nocc M om * nvir M vm) := by
    unfold auxDim; ring
  have hstep : Finset.sum (Finset.range (auxDim M om vm))
      (fun t => g (idxI M om vm t) (idxJ M om vm t) (idxA M vm t)) =
      Finset.sum (Finset.range (nocc M om * (nocc M om * nvir M vm)))
        (fun t => g (t / (nocc M om * nvir M vm))
          (t % (nocc M om * nvir M vm) / nvir M vm)
          (t % (nocc M om * nvir M vm) % nvir M vm)) := by
    rw [← h0]
    refine Finset.sum_congr rfl (fun t _ => ?_)
    have hj : t % (nocc M om * nvir M vm) / nvir M vm =
        t / nvir M vm % nocc M om :=
      Nat.mod_mul_left_div_self t (nvir M vm) (nocc M om)
    have ha : t % (nocc M om * nvir M vm) % nvir M vm = t % nvir M vm :=
      Nat.mod_mul_left_mod t (nocc M om) (nvir M vm)
    unfold idxI idxJ idxA
    rw [hj, ha]
  have hmid : Finset.sum (Finset.range (nocc M om * (nocc M om * nvir M vm)))
      (fun t => g (t / (nocc M om * nvir M vm))
        (t % (nocc M om * nvir M vm) / nvir M vm)
        (t % (nocc M om * nvir M vm) % nvir M vm)) =
      Finset.sum (Finset.range (nocc M om)) (fun i =>
        Finset.sum (Finset.range (nocc M om * nvir M vm))
          (fun r => g i (r / nvir M vm) (r % nvir M vm))) :=
    sum_range_mul_eq (nocc M om) (nocc M om * nvir M vm)
      (fun i r => g i (r / nvir M vm) (r % nvir M vm))
  rw [hstep, hmid]
  refine Finset.sum_congr rfl (fun i _ => ?_)
  exact sum_range_mul_eq (nocc M om) (nvir M vm) (fun j a => g i j a)

lemma sum_basis_collapse (n l : ℕ) (f : ℕ → ℚ) :
    Finset.sum (Finset.range n) (fun y => f y * basisVec l y) =
      if l < n then f l else 0 := by
  unfold basisVec
  simp only [mul_ite, mul_one, mul_zero]
  rw [Finset.sum_ite_eq' (Finset.range n) l f]
  simp [Finset.mem_range]

/-- Claim C2: for every MP2 expression, in both Dyson and non-Dyson modes,
the matrix returned by get_static_part is symmetric. -/
theorem c2_static_symmetric (M : MolInput) (om vm : ℕ → Bool) (nd : Bool)
    (x y : ℕ) :
    get_static_part M om vm nd x y = get_static_part M om vm nd y x := by
  unfold get_static_part
  by_cases h : x = y
  · subst h; rfl
  · have h2 : ¬ y = x := fun hh => h hh.symm
    rw [if_neg h, if_neg h2]
    ring

/-- Claim C8: supplying the precomputed static block to apply_hamiltonian
or diagonal returns the same result as omitting it. -/
theorem c8_static_reuse (M : MolInput) (om vm : ℕ → Bool) (s : MP2State)
    (nd : Bool) (v : ℕ → ℚ) :
    apply_hamiltonian M om vm s
        (some (get_static_part M om vm s.non_dyson)) v
      = apply_hamiltonian M om vm s none v
    ∧ diagonal M om vm nd (some (get_static_part M om vm nd))
      = diagonal M om vm nd none :=
  ⟨rfl, rfl⟩

/-- Claim C10: the read operations leave the expression state (cached
tensor and mode flag) unchanged. -/
theorem c10_no_mutation (M : MolInput) (om vm : ℕ → Bool) (s : MP2State)
    (stat : Option (ℕ → ℕ → ℚ)) (v : ℕ → ℚ) (orb nmom : ℕ) :
    (apply_hamiltonian_call M om vm s stat v).1 = s
    ∧ (diagonal_call M om vm s stat).1 = s
    ∧ (get_wavefunction_call M om vm s orb).1 = s
    ∧ (build_se_moments_call M om vm s nmom).1 = s :=
  ⟨rfl, rfl, rfl, rfl⟩

/-- Claim C6: toggling the non_dyson flag and toggling it back restores
the cached integral tensor exactly. -/
theorem c6_toggle_roundtrip (M : MolInput) (om vm : ℕ → Bool) (s : MP2State)
    (h : s.xija = integrals_for_hamiltonian M om vm s.non_dyson) :
    (setNonDyson M om vm (setNonDyson M om vm s (!s.non_dyson))
        s.non_dyson).xija = s.xija
    ∧ (setNonDyson M om vm (setNonDyson M om vm s (!s.non_dyson))
        s.non_dyson).non_dyson = s.non_dyson := by
  cases hb : s.non_dyson <;> simp [setNonDyson, hb, h]

theorem c6_witness :
    (setNonDyson Mex (occ1h Mex) (vir1h Mex)
        (setNonDyson Mex (occ1h Mex) (vir1h Mex)
          (mkMP2 Mex (occ1h Mex) (vir1h Mex) false)
          (!(mkMP2 Mex (occ1h Mex) (vir1h Mex) false).non_dyson))
        (mkMP2 Mex (occ1h Mex) (vir1h Mex) false).non_dyson).xija
      = (mkMP2 Mex (occ1h Mex) (vir1h Mex) false).xija :=
  (c6_toggle_roundtrip Mex (occ1h Mex) (vir1h Mex)
    (mkMP2 Mex (occ1h Mex) (vir1h Mex) false) rfl).1

/-- Claim C7: get_wavefunction returns a one-hot vector at the requested
main-orbital index. -/
theorem c7_wavefunction_one_hot (M : MolInput) (om vm : ℕ → Bool)
    (nd : Bool) (orb : ℕ)
    (hn : (if nd then nocc M om else nocc M om + nvir M vm) = nmain M om nd)
    (horb : orb < nmain M om nd) :
    get_wavefunction M om vm nd orb orb = 1
    ∧ ∀ k, k ≠ orb → get_wavefunction M om vm nd orb k = 0 := by
  constructor
  · unfold get_wavefunction
    rw [hn]
    have h1 : orb < nmain M om nd + auxDim M om vm :=
      Nat.lt_of_lt_of_le horb (Nat.le_add_right _ _)
    rw [if_pos h1, if_pos rfl]
  · intro k hk
    unfold get_wavefunction
    rw [hn]
    by_cases h2 : k < nmain M om nd + auxDim M om vm
    · rw [if_pos h2, if_neg hk]
    · rw [if_neg h2]

theorem c7_witness :
    get_wavefunction Mex (occ1h Mex) (vir1h Mex) false 0 0 = 1 :=
  (c7_wavefunction_one_hot Mex (occ1h Mex) (vir1h Mex) false 0
    (by decide) (by decide)).1

/-- Claim C5: diagonal is the diagonal of the static block concatenated
with the raveled auxiliary energies, of total length n_main + n_aux. -/
theorem c5_diagonal_concat (M : MolInput) (om vm : ℕ → Bool) (nd : Bool) :
    (∀ k, k < nmain M om nd →
        diagonal M om vm nd none k = get_static_part M om vm nd k k)
    ∧ (∀ i j a, i < nocc M om → j < nocc M om → a < nvir M vm →
        diagonal M om vm nd none (nmain M om nd + flatIdx M om vm i j a)
          = eo M om i + eo M om j - ev M vm a)
    ∧ (∀ k, dimTotal M om vm nd ≤ k → diagonal M om vm nd none k = 0) := by
  refine ⟨?_, ?_, ?_⟩
  · intro k hk
    unfold diagonal
    rw [if_pos hk]
    rfl
  · intro i j a hi hj ha
    have hflat : flatIdx M om vm i j a < auxDim M om vm :=
      flatIdx_lt M om vm i j a hi hj ha
    unfold diagonal
    have h1 : ¬ (nmain M om nd + flatIdx M om vm i j a < nmain M om nd) := by
      omega
    have h2 : nmain M om nd + flatIdx M om vm i j a < dimTotal M om vm nd := by
      unfold dimTotal
      omega
    rw [if_neg h1, if_pos h2]
    unfold eIJA
    have h3 : nmain M om nd + flatIdx M om vm i j a - nmain M om nd =
        flatIdx M om vm i j a := by omega
    rw [h3, idxI_flat M om vm i j a hj ha, idxJ_flat M om vm i j a hj ha,
      idxA_flat M om vm i j a ha]
  · intro k hk
    unfold diagonal
    have h1 : ¬ (k < nmain M om nd) := by
      unfold dimTotal at hk
      omega
    have h2 : ¬ (k < dimTotal M om vm nd) := by omega
    rw [if_neg h1, if_neg h2]

theorem c5_witness :
    diagonal Mex (occ1h Mex) (vir1h Mex) false none 0
      = get_static_part Mex (occ1h Mex) (vir1h Mex) false 0 0
    ∧ diagonal Mex (occ1h Mex) (vir1h Mex) false none
        (nmain Mex (occ1h Mex) false +
          flatIdx Mex (occ1h Mex) (vir1h Mex) 0 0 0)
      = eo Mex (occ1h Mex) 0 + eo Mex (occ1h Mex) 0 - ev Mex (vir1h Mex) 0 :=
  ⟨(c5_diagonal_concat Mex (occ1h Mex) (vir1h Mex) false).1 0 (by decide),
   (c5_diagonal_concat Mex (occ1h Mex) (vir1h Mex) false).2.1 0 0 0
     (by decide) (by decide) (by decide)⟩

/-- Claim C3: build_se_moments returns exactly nmom matrices, the n-th
being the sum over occupied indices and auxiliary pairs of the outer
product of coupling vectors weighted by the n-th power of the auxiliary
energy. -/
theorem c3_moments (M : MolInput) (om vm : ℕ → Bool) (s : MP2State)
    (nmom : ℕ) :
    (build_se_moments M om vm s nmom).length = nmom
    ∧ ∀ n, n < nmom → ∀ x y,
        ((build_se_moments M om vm s nmom).getD n (fun _ _ => 0)) x y
          = Finset.sum
              (Finset.range (nocc M om) ×ˢ
                (Finset.range (nocc M om) ×ˢ Finset.range (nvir M vm)))
              (fun q => s.xija x q.1 q.2.1 q.2.2 *
                (2 * s.xija y q.1 q.2.1 q.2.2 - s.xija y q.2.1 q.1 q.2.2) *
                (eo M om q.1 + eo M om q.2.1 - ev M vm q.2.2) ^ n) := by
  constructor
  · simp [build_se_moments]
  · intro n hn x y
    have hget : (build_se_moments M om vm s nmom).getD n (fun _ _ => 0)
        = seMoment M om vm s n := by
      unfold build_se_moments
      rw [List.getD_eq_getElem?_getD, List.getElem?_map,
        List.getElem?_range hn]
      rfl
    rw [hget, Finset.sum_product]
    unfold seMoment
    refine Finset.sum_congr rfl (fun i _ => ?_)
    rw [Finset.sum_product]

theorem c3_witness :
    (build_se_moments Mex (occ1h Mex) (vir1h Mex)
        (mkMP2 Mex (occ1h Mex) (vir1h Mex) false) 1).length = 1
    ∧ ((build_se_moments Mex (occ1h Mex) (vir1h Mex)
        (mkMP2 Mex (occ1h Mex) (vir1h Mex) false) 1).getD 0
          (fun _ _ => 0)) 0 0
      = Finset.sum
          (Finset.range (nocc Mex (occ1h Mex)) ×ˢ
            (Finset.range (nocc Mex (occ1h Mex)) ×ˢ
              Finset.range (nvir Mex (vir1h Mex))))
          (fun q => (mkMP2 Mex (occ1h Mex) (vir1h Mex) false).xija 0 q.1
              q.2.1 q.2.2 *
            (2 * (mkMP2 Mex (occ1h Mex) (vir1h Mex) false).xija 0 q.1
                q.2.1 q.2.2 -
              (mkMP2 Mex (occ1h Mex) (vir1h Mex) false).xija 0 q.2.1
                q.1 q.2.2) *
            (eo Mex (occ1h Mex) q.1 + eo Mex (occ1h Mex) q.2.1 -
              ev Mex (vir1h Mex) q.2.2) ^ 0) :=
  ⟨(c3_moments Mex (occ1h Mex) (vir1h Mex)
      (mkMP2 Mex (occ1h Mex) (vir1h Mex) false) 1).1,
   (c3_moments Mex (occ1h Mex) (vir1h Mex)
      (mkMP2 Mex (occ1h Mex) (vir1h Mex) false) 1).2 0 (by decide) 0 0⟩

/-- Claim C4: diagonal agrees with the diagonal of the dense operator
materialized by applying the Hamiltonian to each basis vector. -/
theorem c4_diagonal_matches_dense (M : MolInput) (om vm : ℕ → Bool)
    (s : MP2State) (k : ℕ) :
    diagonal M om vm s.non_dyson none k = hmat M om vm s k k := by
  unfold hmat apply_hamiltonian diagonal
  by_cases h1 : k < nmain M om s.non_dyson
  · rw [if_pos h1, if_pos h1]
    have hz : Finset.sum (Finset.range (nocc M om)) (fun i =>
        Finset.sum (Finset.range (nocc M om)) (fun j =>
          Finset.sum (Finset.range (nvir M vm)) (fun a =>
            s.xija k i j a *
              basisVec k (nmain M om s.non_dyson +
                flatIdx M om vm i j a)))) = 0 := by
      refine Finset.sum_eq_zero (fun i _ => ?_)
      refine Finset.sum_eq_zero (fun j _ => ?_)
      refine Finset.sum_eq_zero (fun a _ => ?_)
      have hne : nmain M om s.non_dyson + flatIdx M om vm i j a ≠ k := by
        omega
      unfold basisVec
      rw [if_neg hne, mul_zero]
    rw [sum_basis_collapse (nmain M om s.non_dyson) k
        (fun y => (Option.getD none
          (get_static_part M om vm s.non_dyson)) k y),
      if_pos h1, hz, add_zero]
  · rw [if_neg h1, if_neg h1]
    by_cases h2 : k < dimTotal M om vm s.non_dyson
    · rw [if_pos h2, if_pos h2]
      have hz1 : Finset.sum (Finset.range (nmain M om s.non_dyson)) (fun x =>
          s.xija x (idxI M om vm (k - nmain M om s.non_dyson))
            (idxJ M om vm (k - nmain M om s.non_dyson))
            (idxA M vm (k - nmain M om s.non_dyson)) * basisVec k x) = 0 := by
        refine Finset.sum_eq_zero (fun x hx => ?_)
        have hxn : x < nmain M om s.non_dyson := Finset.mem_range.mp hx
        have hne : x ≠ k := by omega
        unfold basisVec
        rw [if_neg hne, mul_zero]
      have hz2 : Finset.sum (Finset.range (nmain M om s.non_dyson)) (fun x =>
          s.xija x (idxJ M om vm (k - nmain M om s.non_dyson))
            (idxI M om vm (k - nmain M om s.non_dyson))
            (idxA M vm (k - nmain M om s.non_dyson)) * basisVec k x) = 0 := by
        refine Finset.sum_eq_zero (fun x hx => ?_)
        have hxn : x < nmain M om s.non_dyson := Finset.mem_range.mp hx
        have hne : x ≠ k := by omega
        unfold basisVec
        rw [if_neg hne, mul_zero]
      rw [hz1, hz2]
      unfold basisVec
      rw [if_pos rfl]
      ring
    · rw [if_neg h2, if_neg h2]

/-- Claim C9: the particle-addition variant coincides with the
particle-removal variant run on the occupation-inverted input, operation
by operation. -/
theorem c9_variant_swap (M : MolInput)
    (hocc : ∀ p, M.mo_occ p = 0 ∨ 0 < M.mo_occ p) (nd : Bool) :
    get_static_part (invOcc M) (occ1h (invOcc M)) (vir1h (invOcc M)) nd
      = get_static_part M (occ1p M) (vir1p M) nd
    ∧ (∀ stat v, apply_hamiltonian (invOcc M) (occ1h (invOcc M))
        (vir1h (invOcc M))
        (mkMP2 (invOcc M) (occ1h (invOcc M)) (vir1h (invOcc M)) nd) stat v
        = apply_hamiltonian M (occ1p M) (vir1p M)
            (mkMP2 M (occ1p M) (vir1p M) nd) stat v)
    ∧ (∀ stat, diagonal (invOcc M) (occ1h (invOcc M)) (vir1h (invOcc M))
        nd stat
        = diagonal M (occ1p M) (vir1p M) nd stat)
    ∧ (∀ orb, get_wavefunction (invOcc M) (occ1h (invOcc M))
        (vir1h (invOcc M)) nd orb
        = get_wavefunction M (occ1p M) (vir1p M) nd orb)
    ∧ (∀ nmom, build_se_moments (invOcc M) (occ1h (invOcc M))
        (vir1h (invOcc M))
        (mkMP2 (invOcc M) (occ1h (invOcc M)) (vir1h (invOcc M)) nd) nmom
        = build_se_moments M (occ1p M) (vir1p M)
            (mkMP2 M (occ1p M) (vir1p M) nd) nmom) := by
  have h1 : occ1h (invOcc M) = occ1p M := by
    funext p
    unfold occ1h occ1p invOcc
    rcases hocc p with h | h
    · simp [h]
    · simp [h, h.ne']
  have h2 : vir1h (invOcc M) = vir1p M := by
    funext p
    unfold vir1h vir1p invOcc
    by_cases h : 0 < M.mo_occ p <;> simp [h]
  refine ⟨?_, fun stat v => ?_, fun stat => ?_, fun orb => ?_,
    fun nmom => ?_⟩ <;> rw [h1, h2] <;> rfl

theorem c9_witness :
    get_static_part (invOcc Mex) (occ1h (invOcc Mex)) (vir1h (invOcc Mex))
        false
      = get_static_part Mex (occ1p Mex) (vir1p Mex) false :=
  (c9_variant_swap Mex
    (fun p => by
      by_cases h : p < 2
      · exact Or.inr (by simp [Mex, exOcc, h])
      · exact Or.inl (by simp [Mex, exOcc, h])) false).1

lemma triple_sum_delta (M : MolInput) (om vm : ℕ → Bool) (F : ℕ → ℕ → ℕ → ℚ)
    (t : ℕ) (ht : t < auxDim M om vm) :
    Finset.sum (Finset.range (nocc M om)) (fun i =>
      Finset.sum (Finset.range (nocc M om)) (fun j =>
        Finset.sum (Finset.range (nvir M vm)) (fun a =>
          F i j a * (if flatIdx M om vm i j a = t then 1 else 0))))
      = F (idxI M om vm t) (idxJ M om vm t) (idxA M vm t) := by
  have h1 : Finset.sum (Finset.range (auxDim M om vm))
      (fun u => F (idxI M om vm u) (idxJ M om vm u) (idxA M vm u) *
        (if flatIdx M om vm (idxI M om vm u) (idxJ M om vm u) (idxA M vm u)
            = t then 1 else 0))
      = Finset.sum (Finset.range (nocc M om)) (fun i =>
          Finset.sum (Finset.range (nocc M om)) (fun j =>
            Finset.sum (Finset.range (nvir M vm)) (fun a =>
              F i j a * (if flatIdx M om vm i j a = t then 1 else 0)))) :=
    sum_unflatten M om vm
      (fun i j a => F i j a * (if flatIdx M om vm i j a = t then 1 else 0))
  rw [← h1]
  have h2 : Finset.sum (Finset.range (auxDim M om vm))
      (fun u => F (idxI M om vm u) (idxJ M om vm u) (idxA M vm u) *
        (if flatIdx M om vm (idxI M om vm u) (idxJ M om vm u) (idxA M vm u)
            = t then 1 else 0))
      = Finset.sum (Finset.range (auxDim M om vm))
        (fun u => if u = t
          then F (idxI M om vm u) (idxJ M om vm u) (idxA M vm u) else 0) := by
    refine Finset.sum_congr rfl (fun u _ => ?_)
    rw [flat_unflat M om vm u]
    by_cases h : u = t
    · rw [if_pos h, if_pos h, mul_one]
    · rw [if_neg h, if_neg h, mul_zero]
  rw [h2, Finset.sum_ite_eq' (Finset.range (auxDim M om vm)) t
    (fun u => F (idxI M om vm u) (idxJ M om vm u) (idxA M vm u)),
    if_pos (Finset.mem_range.mpr ht)]

lemma hmat_main_main (M : MolInput) (om vm : ℕ → Bool) (s : MP2State)
    (k l : ℕ) (hk : k < nmain M om s.non_dyson)
    (hl : l < nmain M om s.non_dyson) :
    hmat M om vm s k l = get_static_part M om vm s.non_dyson k l := by
  unfold hmat apply_hamiltonian
  rw [if_pos hk]
  have hz : Finset.sum (Finset.range (nocc M om)) (fun i =>
      Finset.sum (Finset.range (nocc M om)) (fun j =>
        Finset.sum (Finset.range (nvir M vm)) (fun a =>
          s.xija k i j a *
            basisVec l (nmain M om s.non_dyson +
              flatIdx M om vm i j a)))) = 0 := by
    refine Finset.sum_eq_zero (fun i _ => ?_)
    refine Finset.sum_eq_zero (fun j _ => ?_)
    refine Finset.sum_eq_zero (fun a _ => ?_)
    have hne : nmain M om s.non_dyson + flatIdx M om vm i j a ≠ l := by omega
    unfold basisVec
    rw [if_neg hne, mul_zero]
  rw [sum_basis_collapse (nmain M om s.non_dyson) l
      (fun y => (Option.getD none (get_static_part M om vm s.non_dyson)) k y),
    if_pos hl, hz, add_zero]
  rfl

lemma hmat_main_aux (M : MolInput) (om vm : ℕ → Bool) (s : MP2State)
    (k t : ℕ) (hk : k < nmain M om s.non_dyson) (ht : t < auxDim M om vm) :
    hmat M om vm s k (nmain M om s.non_dyson + t)
      = s.xija k (idxI M om vm t) (idxJ M om vm t) (idxA M vm t) := by
  unfold hmat apply_hamiltonian
  rw [if_pos hk]
  have hz0 : Finset.sum (Finset.range (nmain M om s.non_dyson))
      (fun y => (Option.getD none (get_static_part M om vm s.non_dyson)) k y *
        basisVec (nmain M om s.non_dyson + t) y) = 0 := by
    rw [sum_basis_collapse (nmain M om s.non_dyson)
      (nmain M om s.non_dyson + t)
      (fun y => (Option.getD none (get_static_part M om vm s.non_dyson)) k y)]
    rw [if_neg (by omega)]
  have hpt : Finset.sum (Finset.range (nocc M om)) (fun i =>
      Finset.sum (Finset.range (nocc M om)) (fun j =>
        Finset.sum (Finset.range (nvir M vm)) (fun a =>
          s.xija k i j a *
            basisVec (nmain M om s.non_dyson + t)
              (nmain M om s.non_dyson + flatIdx M om vm i j a)))) =
      Finset.sum (Finset.range (nocc M om)) (fun i =>
        Finset.sum (Finset.range (nocc M om)) (fun j =>
          Finset.sum (Finset.range (nvir M vm)) (fun a =>
            s.xija k i j a *
              (if flatIdx M om vm i j a = t then 1 else 0)))) := by
    refine Finset.sum_congr rfl (fun i _ => ?_)
    refine Finset.sum_congr rfl (fun j _ => ?_)
    refine Finset.sum_congr rfl (fun a _ => ?_)
    unfold basisVec
    congr 1
    by_cases h : flatIdx M om vm i j a = t
    · rw [if_pos (by omega), if_pos h]
    · rw [if_neg (by omega), if_neg h]
  have hcol : Finset.sum (Finset.range (nocc M om)) (fun i =>
      Finset.sum (Finset.range (nocc M om)) (fun j =>
        Finset.sum (Finset.range (nvir M vm)) (fun a =>
          s.xija k i j a *
            (if flatIdx M om vm i j a = t then 1 else 0)))) =
      s.xija k (idxI M om vm t) (idxJ M om vm t) (idxA M vm t) :=
    triple_sum_delta M om vm (fun i j a => s.xija k i j a) t ht
  rw [hz0, zero_add, hpt, hcol]

lemma hmat_aux_main (M : MolInput) (om vm : ℕ → Bool) (s : MP2State)
    (k l : ℕ) (hk1 : ¬ k < nmain M om s.non_dyson)
    (hk2 : k < dimTotal M om vm s.non_dyson)
    (hl : l < nmain M om s.non_dyson) :
    hmat M om vm s k l
      = 2 * s.xija l (idxI M om vm (k - nmain M om s.non_dyson))
            (idxJ M om vm (k - nmain M om s.non_dyson))
            (idxA M vm (k - nmain M om s.non_dyson))
        - s.xija l (idxJ M om vm (k - nmain M om s.non_dyson))
            (idxI M om vm (k - nmain M om s.non_dyson))
            (idxA M vm (k - nmain M om s.non_dyson)) := by
  unfold hmat apply_hamiltonian
  rw [if_neg hk1, if_pos hk2]
  have e1 : Finset.sum (Finset.range (nmain M om s.non_dyson)) (fun x =>
      s.xija x (idxI M om vm (k - nmain M om s.non_dyson))
        (idxJ M om vm (k - nmain M om s.non_dyson))
        (idxA M vm (k - nmain M om s.non_dyson)) * basisVec l x)
      = s.xija l (idxI M om vm (k - nmain M om s.non_dyson))
          (idxJ M om vm (k - nmain M om s.non_dyson))
          (idxA M vm (k - nmain M om s.non_dyson)) := by
    rw [sum_basis_collapse (nmain M om s.non_dyson) l
      (fun x => s.xija x (idxI M om vm (k - nmain M om s.non_dyson))
        (idxJ M om vm (k - nmain M om s.non_dyson))
        (idxA M vm (k - nmain M om s.non_dyson))), if_pos hl]
  have e2 : Finset.sum (Finset.range (nmain M om s.non_dyson)) (fun x =>
      s.xija x (idxJ M om vm (k - nmain M om s.non_dyson))
        (idxI M om vm (k - nmain M om s.non_dyson))
        (idxA M vm (k - nmain M om s.non_dyson)) * basisVec l x)
      = s.xija l (idxJ M om vm (k - nmain M om s.non_dyson))
          (idxI M om vm (k - nmain M om s.non_dyson))
          (idxA M vm (k - nmain M om s.non_dyson)) := by
    rw [sum_basis_collapse (nmain M om s.non_dyson) l
      (fun x => s.xija x (idxJ M om vm (k - nmain M om s.non_dyson))
        (idxI M om vm (k - nmain M om s.non_dyson))
        (idxA M vm (k - nmain M om s.non_dyson))), if_pos hl]
  have e3 : basisVec l k = 0 := by
    unfold basisVec
    rw [if_neg (by omega)]
  rw [e1, e2, e3, zero_mul, add_zero]

lemma hmat_aux_aux (M : MolInput) (om vm : ℕ → Bool) (s : MP2State)
    (k t : ℕ) (hk1 : ¬ k < nmain M om s.non_dyson)
    (hk2 : k < dimTotal M om vm s.non_dyson) :
    hmat M om vm s k (nmain M om s.non_dyson + t)
      = (if k = nmain M om s.non_dyson + t then 1 else 0) *
          eIJA M om vm (k - nmain M om s.non_dyson) := by
  unfold hmat apply_hamiltonian
  rw [if_neg hk1, if_pos hk2]
  have e1 : Finset.sum (Finset.range (nmain M om s.non_dyson)) (fun x =>
      s.xija x (idxI M om vm (k - nmain M om s.non_dyson))
        (idxJ M om vm (k - nmain M om s.non_dyson))
        (idxA M vm (k - nmain M om s.non_dyson)) *
          basisVec (nmain M om s.non_dyson + t) x) = 0 := by
    rw [sum_basis_collapse (nmain M om s.non_dyson)
      (nmain M om s.non_dyson + t)
      (fun x => s.xija x (idxI M om vm (k - nmain M om s.non_dyson))
        (idxJ M om vm (k - nmain M om s.non_dyson))
        (idxA M vm (k - nmain M om s.non_dyson))), if_neg (by omega)]
  have e2 : Finset.sum (Finset.range (nmain M om s.non_dyson)) (fun x =>
      s.xija x (idxJ M om vm (k - nmain M om s.non_dyson))
        (idxI M om vm (k - nmain M om s.non_dyson))
        (idxA M vm (k - nmain M om s.non_dyson)) *
          basisVec (nmain M om s.non_dyson + t) x) = 0 := by
    rw [sum_basis_collapse (nmain M om s.non_dyson)
      (nmain M om s.non_dyson + t)
      (fun x => s.xija x (idxJ M om vm (k - nmain M om s.non_dyson))
        (idxI M om vm (k - nmain M om s.non_dyson))
        (idxA M vm (k - nmain M om s.non_dyson))), if_neg (by omega)]
  rw [e1, e2]
  unfold basisVec
  ring

lemma hmat_out (M : MolInput) (om vm : ℕ → Bool) (s : MP2State) (k l : ℕ)
    (hk2 : ¬ k < dimTotal M om vm s.non_dyson) :
    hmat M om vm s k l = 0 := by
  unfold hmat apply_hamiltonian
  have hk1 : ¬ k < nmain M om s.non_dyson := by
    unfold dimTotal at hk2
    omega
  rw [if_neg hk1, if_neg hk2]

/-- Claim C1: apply_hamiltonian equals the matrix-vector product with the
dense operator materialized by applying the operator to each standard
basis vector; in particular it is linear in the vector argument. -/
theorem c1_matvec (M : MolInput) (om vm : ℕ → Bool) (s : MP2State)
    (v : ℕ → ℚ) (k : ℕ) :
    apply_hamiltonian M om vm s none v k
      = Finset.sum (Finset.range (dimTotal M om vm s.non_dyson))
          (fun l => hmat M om vm s k l * v l) := by
  have hsplit : Finset.sum (Finset.range (dimTotal M om vm s.non_dyson))
      (fun l => hmat M om vm s k l * v l)
      = Finset.sum (Finset.range (nmain M om s.non_dyson))
          (fun l => hmat M om vm s k l * v l)
        + Finset.sum (Finset.range (auxDim M om vm))
            (fun t => hmat M om vm s k (nmain M om s.non_dyson + t) *
              v (nmain M om s.non_dyson + t)) := by
    unfold dimTotal
    exact Finset.sum_range_add (fun l => hmat M om vm s k l * v l) _ _
  rw [hsplit]
  by_cases hk1 : k < nmain M om s.non_dyson
  · have e1 : Finset.sum (Finset.range (nmain M om s.non_dyson))
        (fun l => hmat M om vm s k l * v l)
        = Finset.sum (Finset.range (nmain M om s.non_dyson))
          (fun l => get_static_part M om vm s.non_dyson k l * v l) :=
      Finset.sum_congr rfl (fun l hl => by
        rw [hmat_main_main M om vm s k l hk1 (Finset.mem_range.mp hl)])
    have e2 : Finset.sum (Finset.range (auxDim M om vm))
        (fun t => hmat M om vm s k (nmain M om s.non_dyson + t) *
          v (nmain M om s.non_dyson + t))
        = Finset.sum (Finset.range (auxDim M om vm))
          (fun t => s.xija k (idxI M om vm t) (idxJ M om vm t)
              (idxA M vm t) * v (nmain M om s.non_dyson + t)) :=
      Finset.sum_congr rfl (fun t ht => by
        rw [hmat_main_aux M om vm s k t hk1 (Finset.mem_range.mp ht)])
    rw [e1, e2]
    unfold apply_hamiltonian
    rw [if_pos hk1]
    congr 1
    have e3 : Finset.sum (Finset.range (auxDim M om vm))
        (fun u => s.xija k (idxI M om vm u) (idxJ M om vm u) (idxA M vm u) *
          v (nmain M om s.non_dyson +
            flatIdx M om vm (idxI M om vm u) (idxJ M om vm u) (idxA M vm u)))
        = Finset.sum (Finset.range (nocc M om)) (fun i =>
            Finset.sum (Finset.range (nocc M om)) (fun j =>
              Finset.sum (Finset.range (nvir M vm)) (fun a =>
                s.xija k i j a *
                  v (nmain M om s.non_dyson + flatIdx M om vm i j a)))) :=
      sum_unflatten M om vm (fun i j a => s.xija k i j a *
        v (nmain M om s.non_dyson + flatIdx M om vm i j a))
    rw [← e3]
    refine Finset.sum_congr rfl (fun u _ => ?_)
    rw [flat_unflat M om vm u]
  · by_cases hk2 : k < dimTotal M om vm s.non_dyson
    · have e1 : Finset.sum (Finset.range (nmain M om s.non_dyson))
          (fun l => hmat M om vm s k l * v l)
          = 2 * Finset.sum (Finset.range (nmain M om s.non_dyson))
              (fun x => s.xija x (idxI M om vm (k - nmain M om s.non_dyson))
                (idxJ M om vm (k - nmain M om s.non_dyson))
                (idxA M vm (k - nmain M om s.non_dyson)) * v x)
            - Finset.sum (Finset.range (nmain M om s.non_dyson))
              (fun x => s.xija x (idxJ M om vm (k - nmain M om s.non_dyson))
                (idxI M om vm (k - nmain M om s.non_dyson))
                (idxA M vm (k - nmain M om s.non_dyson)) * v x) := by
        have ep : Finset.sum (Finset.range (nmain M om s.non_dyson))
            (fun l => hmat M om vm s k l * v l)
            = Finset.sum (Finset.range (nmain M om s.non_dyson))
              (fun l =>
                2 * (s.xija l (idxI M om vm (k - nmain M om s.non_dyson))
                  (idxJ M om vm (k - nmain M om s.non_dyson))
                  (idxA M vm (k - nmain M om s.non_dyson)) * v l)
                - s.xija l (idxJ M om vm (k - nmain M om s.non_dyson))
                  (idxI M om vm (k - nmain M om s.non_dyson))
                  (idxA M vm (k - nmain M om s.non_dyson)) * v l) :=
          Finset.sum_congr rfl (fun l hl => by
            rw [hmat_aux_main M om vm s k l hk1 hk2 (Finset.mem_range.mp hl)]
            ring)
        rw [ep, Finset.sum_sub_distrib]
        congr 1
        rw [Finset.mul_sum]
      have e2 : Finset.sum (Finset.range (auxDim M om vm))
          (fun t => hmat M om vm s k (nmain M om s.non_dyson + t) *
            v (nmain M om s.non_dyson + t))
          = v k * eIJA M om vm (k - nmain M om s.non_dyson) := by
        have ep : Finset.sum (Finset.range (auxDim M om vm))
            (fun t => hmat M om vm s k (nmain M om s.non_dyson + t) *
              v (nmain M om s.non_dyson + t))
            = Finset.sum (Finset.range (auxDim M om vm))
              (fun t => if t = k - nmain M om s.non_dyson
                then eIJA M om vm (k - nmain M om s.non_dyson) *
                  v (nmain M om s.non_dyson + t)
                else 0) :=
          Finset.sum_congr rfl (fun t _ => by
            rw [hmat_aux_aux M om vm s k t hk1 hk2]
            by_cases h : k = nmain M om s.non_dyson + t
            · rw [if_pos h, if_pos (by omega), one_mul]
            · rw [if_neg h, if_neg (by omega), zero_mul, zero_mul])
        rw [ep, Finset.sum_ite_eq' (Finset.range (auxDim M om vm))
          (k - nmain M om s.non_dyson)
          (fun t => eIJA M om vm (k - nmain M om s.non_dyson) *
            v (nmain M om s.non_dyson + t))]
        rw [if_pos (Finset.mem_range.mpr (by
          unfold dimTotal at hk2
          omega))]
        have hks : nmain M om s.non_dyson +
            (k - nmain M om s.non_dyson) = k := by omega
        rw [hks, mul_comm]
      rw [e1, e2]
      unfold apply_hamiltonian
      rw [if_neg hk1, if_pos hk2]
    · have e1 : Finset.sum (Finset.range (nmain M om s.non_dyson))
          (fun l => hmat M om vm s k l * v l) = 0 :=
        Finset.sum_eq_zero (fun l _ => by
          rw [hmat_out M om vm s k l hk2, zero_mul])
      have e2 : Finset.sum (Finset.range (auxDim M om vm))
          (fun t => hmat M om vm s k (nmain M om s.non_dyson + t) *
            v (nmain M om s.non_dyson + t)) = 0 :=
        Finset.sum_eq_zero (fun t _ => by
          rw [hmat_out M om vm s k _ hk2, zero_mul])
      rw [e1, e2]
      unfold apply_hamiltonian
      rw [if_neg hk1, if_neg hk2]
      norm_num

end DysonMP2
